import Mathlib

/-!
Shallow embedding of `src/tags/object/TimeSeries/Channel.js` — the
TimeSeriesChannel tag of label-studio-frontend.

Modelling conventions:
* JavaScript numbers are modelled as `ℚ` (the file performs only exact
  arithmetic on sample data: comparisons, sums, one division for the
  average, one division for the relative cursor position).
* A JavaScript value that may be `undefined`/`null` is modelled as an
  `Option`; `NaN` results of statistics over missing samples are also
  modelled as `none`.
* The channel model state (mobx-state-tree model plus the ad-hoc fields
  the actions attach to `self`) is the record `ChannelState`.
* External libraries (pondjs, Immutable.js) are not part of this
  repository; their functions used by the file are modelled at the level
  of their documented behaviour, each with a doc comment saying so.
  `TimeSeries.bisect` is left as an arbitrary index-returning function
  parameter, so every theorem about `getValue` holds for any index the
  library could return.
-/

namespace Channel

/-- Point of the series built by `updateValue`: a pair
`[parent._value[0][i], self._value[0][i]]` pushed into `points`.  The
second component is `none` when the channel row has no sample at that
index (JavaScript `undefined`). -/
structure Point where
  time : ℚ
  value : Option ℚ
  deriving DecidableEq, Repr

/-- State of one `TimeSeriesChannelModel` instance: the declared tag
attributes (`TagAttrs` in the source, with their `types.optional`
defaults), the `tracker` field set by `handleTrackerChanged`, and the
derived fields (`_value`, `_series`, `_avg`, `_max`, `_min`, `_minTime`,
`_maxTime`) that `updateValue` attaches to `self`.  Derived fields and
`tracker` are `Option`s whose `none` means "never assigned"
(JavaScript `undefined`); `_avg`/`_max`/`_min` store an
`Option ℤ` whose `none` models a stored `NaN` (`parseInt` of a
statistic over missing samples). -/
structure ChannelState where
  displayname : Option String
  units : Option String
  unitsformat : String
  caption : Bool
  interpolation : String
  showgrid : Bool
  showtracker : Bool
  height : String
  opacity : String
  strokewidth : String
  strokecolor : String
  value : Option String
  tracker : Option ℚ
  _value : Option (List ℚ)
  _series : Option (List Point)
  _avg : Option (Option ℤ)
  _max : Option (Option ℤ)
  _min : Option (Option ℤ)
  _minTime : Option ℚ
  _maxTime : Option ℚ
  deriving DecidableEq, Repr

/-- Freshly created channel model: tag attributes hold their
`types.optional` defaults from `TagAttrs`, nothing else has ever been
assigned (the `_value` declaration in the source is commented out, so
no derived field exists before the first `updateValue`). -/
def initChannelState : ChannelState where
  displayname := none
  units := none
  unitsformat := ".1f"
  caption := true
  interpolation := "curveStep"
  showgrid := false
  showtracker := true
  height := "200"
  opacity := "0.8"
  strokewidth := "1"
  strokecolor := "#000000"
  value := none
  tracker := none
  _value := none
  _series := none
  _avg := none
  _max := none
  _min := none
  _minTime := none
  _maxTime := none

/-- JavaScript `parseInt(x, 10)` applied to a finite number printed in
plain decimal notation: the fractional part is discarded, i.e. the
number is truncated toward zero. -/
def jsTrunc (q : ℚ) : ℤ := if 0 ≤ q then ⌊q⌋ else ⌈q⌉

/-- Loop body of `updateValue`:
`for (let i = 0; i <= self.parent._value[0][i]; i++)
   points.push([self.parent._value[0][i], self._value[0][i]]);`
The walk is positional: at step `i` the remaining suffix of the parent
row is `times.drop i`, so its head is `self.parent._value[0][i]`.  The
loop condition compares the index `i` with the time value at index `i`
(`i <= undefined` is false, which also stops the loop at the end of the
array). -/
def buildPointsFrom (vals : List ℚ) : ℕ → List ℚ → List Point
  | _, [] => []
  | i, t :: rest =>
    if (i : ℚ) ≤ t then ⟨t, vals[i]?⟩ :: buildPointsFrom vals (i + 1) rest
    else []

/-- Point list built by `updateValue` from the parent row
`times = self.parent._value[0]` and the channel row
`vals = self._value[0]`. -/
def buildPoints (times vals : List ℚ) : List Point :=
  buildPointsFrom vals 0 times

/-- Series the specification describes: exactly one point per raw
sample, pairing the parent's time at index `i` with the channel's value
at index `i`. -/
def pairAll (times vals : List ℚ) : List Point :=
  List.zipWith (fun t v => Point.mk t (some v)) times vals

/-- Sum of a list of numbers (used by the average). -/
def sumQ (l : List ℚ) : ℚ := l.foldl (fun a b => a + b) 0

/-- One step of pondjs's running-minimum fold
(`if (!min || x < min) min = x`).  External library. -/
def minStep (acc : Option ℚ) (t : ℚ) : Option ℚ :=
  match acc with
  | none => some t
  | some m => if t < m then some t else some m

/-- Running minimum over a list, pondjs style; `none` on the empty
list.  External library. -/
def foldMin (l : List ℚ) : Option ℚ := l.foldl minStep none

/-- One step of pondjs's running-maximum fold
(`if (!max || x > max) max = x`).  External library. -/
def maxStep (acc : Option ℚ) (t : ℚ) : Option ℚ :=
  match acc with
  | none => some t
  | some m => if m < t then some t else some m

/-- Running maximum over a list, pondjs style; `none` on the empty
list.  External library. -/
def foldMax (l : List ℚ) : Option ℚ := l.foldl maxStep none

/-- Sample values present in a point list. -/
def seriesValues (ps : List Point) : List ℚ := ps.filterMap Point.value

/-- Whether every point of the series carries a defined sample value. -/
def seriesComplete (ps : List Point) : Bool := ps.all fun p => p.value.isSome

/-- pondjs `TimeSeries.avg(column)`: sum of the column divided by the
number of events; `none` models the `NaN`/`undefined` result on an
empty series or on a series with missing sample values.  External
library. -/
def seriesAvg (ps : List Point) : Option ℚ :=
  if ps.isEmpty then none
  else if seriesComplete ps then some (sumQ (seriesValues ps) / (ps.length : ℚ))
  else none

/-- pondjs `TimeSeries.min(column)`; `none` models `NaN`/`undefined` on
an empty series or missing values.  External library. -/
def seriesMin (ps : List Point) : Option ℚ :=
  if seriesComplete ps then foldMin (seriesValues ps) else none

/-- pondjs `TimeSeries.max(column)`; `none` models `NaN`/`undefined` on
an empty series or missing values.  External library. -/
def seriesMax (ps : List Point) : Option ℚ :=
  if seriesComplete ps then foldMax (seriesValues ps) else none

/-- pondjs `TimeSeries.range()`: a `TimeRange` from the earliest to the
latest event time, computed by a running min/max fold over the events;
for an empty series the fold produces nothing and `range()` is
`undefined` (`none`), so that calling `.begin()`/`.end()` on it throws.
External library. -/
def seriesRange (ps : List Point) : Option (ℚ × ℚ) :=
  match foldMin (ps.map Point.time), foldMax (ps.map Point.time) with
  | some b, some e => some (b, e)
  | _, _ => none

/-- Action `updateValue(store)`.  Inputs: `times` is the parent row
`self.parent._value[0]` and `vals` is the channel row
`self._value[0]` extracted by `runTemplate(self.value, store.task.dataObj,
{raw: true})` (`runTemplate` is external to this file and is modelled
by passing its result in).  The action assigns `self._value`, builds
`points`, constructs the series, stores the `parseInt`-truncated
statistics and the series, and finally reads
`series.range().begin()` / `.end()`; when the built series is empty,
`range()` is `undefined` and that read throws, modelled as
`Except.error`. -/
def updateValue (st : ChannelState) (times vals : List ℚ) :
    Except String ChannelState :=
  match seriesRange (buildPoints times vals) with
  | none => Except.error "range of an empty series is undefined"
  | some (b, e) =>
    Except.ok { st with
      _value := some vals
      _series := some (buildPoints times vals)
      _avg := some ((seriesAvg (buildPoints times vals)).map jsTrunc)
      _max := some ((seriesMax (buildPoints times vals)).map jsTrunc)
      _min := some ((seriesMin (buildPoints times vals)).map jsTrunc)
      _minTime := some b
      _maxTime := some e }

/-- Successful result of an action, `none` when it threw. -/
def okState (e : Except String ChannelState) : Option ChannelState :=
  match e with
  | Except.ok st => some st
  | Except.error _ => none

/-- Observable effect of `handleTrackerChanged`: the updated model and
whether `self.parent.updateView()` was invoked. -/
structure TrackerEffect where
  state : ChannelState
  parentUpdateViewCalled : Bool
  deriving DecidableEq, Repr

/-- Action `handleTrackerChanged(t)`: assigns `self.tracker = t` and
calls `self.parent.updateView()`.  `t` is the tracker date handed over
by the chart (`none` models `null`, sent when the cursor leaves the
chart). -/
def handleTrackerChanged (st : ChannelState) (t : Option ℚ) : TrackerEffect :=
  { state := { st with tracker := t }, parentUpdateViewCalled := true }

/-- JavaScript value produced by the cursor-value lookup: `undefined`,
`null`, or a number. -/
inductive JsVal where
  | undef : JsVal
  | null : JsVal
  | num : ℚ → JsVal
  deriving DecidableEq, Repr

/-- JavaScript truthiness of a `JsVal` (`undefined`, `null` and `0` are
falsy). -/
def jsTruthy : JsVal → Bool
  | JsVal.undef => false
  | JsVal.null => false
  | JsVal.num q => decide (q ≠ 0)

/-- Immutable.js `List.get(i)` as used by pondjs `Collection.at`:
an index in `[0, size)` reads directly, a negative index in
`[-size, 0)` wraps once from the end, anything else yields
`undefined`.  External library. -/
def listGetWrap (ps : List Point) (i : ℤ) : Option Point :=
  if 0 ≤ i then ps[i.toNat]?
  else if 0 ≤ i + (ps.length : ℤ) then ps[(i + (ps.length : ℤ)).toNat]?
  else none

/-- Body of the `try` block in `getValue`:
`series.at(i).get(item.value)`.  When the event lookup fails the
exception is caught and `null` is returned; an existing event whose
column value is missing yields `undefined`; otherwise the sample value
is returned. -/
def seriesLookup (ps : List Point) (i : ℤ) : JsVal :=
  match listGetWrap ps i with
  | some p =>
    match p.value with
    | some q => JsVal.num q
    | none => JsVal.undef
  | none => JsVal.null

/-- Start index handed to `bisect`:
`Math.floor(((+tracker - +begin) / (+end - +begin)) * series.size())`
for the view's `timerange` `[tb, te]`.  (In Lean `ℚ` division by zero
is `0`, so a degenerate `tb = te` makes the start index `0`; in
JavaScript the same degenerate case reaches `bisect` as `NaN`, whose
`b || 0` start is likewise `0`.) -/
def cursorIndex (ps : List Point) (t tb te : ℚ) : ℤ :=
  ⌊(t - tb) / (te - tb) * (ps.length : ℚ)⌋

/-- Closure `getValue` of the view: returns `undefined` when no tracker
is set, otherwise looks the tracker position up in the series through
pondjs `bisect`, guarding the lookup with `try/catch`.  `bisect` (an
external library call) is passed in as an arbitrary function from the
tracker time and the start index to an index, so the theorems below
hold for every index the library could return. -/
def getValue (bisect : ℚ → ℤ → ℤ) (ps : List Point) (tracker : Option ℚ)
    (tb te : ℚ) : JsVal :=
  match tracker with
  | none => JsVal.undef
  | some t => seriesLookup ps (bisect t (cursorIndex ps t tb te))

/-- `trackerPosition` prop of the rendered `ChartContainer`:
`const showtracker = item.showtracker && uval;` and then
`trackerPosition={showtracker ? item.tracker : null}`. -/
def trackerPositionOf (showtracker : Bool) (uval : JsVal)
    (tracker : Option ℚ) : Option ℚ :=
  if showtracker && jsTruthy uval then tracker else none

/-- Guard of `HtxTimeSeriesChannelView`: `if (!item._value) return null;`.
When set, `_value` is the (always truthy) array produced by
`runTemplate`, so the view renders nothing exactly when `_value` was
never assigned. -/
def viewRendersNull (st : ChannelState) : Bool := st._value.isNone

/-- The curve-name map `csMap` of the source, in source order.  The
source object literal repeats the key `curvestep` (with the same value
`"curveStep"`); in JavaScript the later entry overwrites the earlier
equal one, so keeping both in the association list is observably
identical.  Note the entry `curvebasis → "curvebasis"` keeps the
lower-case spelling, exactly as in the source. -/
def csMap : List (String × String) :=
  [("curvestep", "curveStep"),
   ("curvebasis", "curvebasis"),
   ("curvebasisopen", "curveBasisOpen"),
   ("curvebundle", "curveBundle"),
   ("curvecardinal", "curveCardinal"),
   ("curvecardinalopen", "curveCardinalOpen"),
   ("curvecatmullrom", "curveCatmullRom"),
   ("curvecatmullromopen", "curveCatmullRomOpen"),
   ("curvelinear", "curveLinear"),
   ("curvemonotonex", "curveMonotoneX"),
   ("curvemonotoney", "curveMonotoneY"),
   ("curvenatural", "curveNatural"),
   ("curveradial", "curveRadial"),
   ("curvestep", "curveStep"),
   ("curvestepafter", "curveStepAfter"),
   ("curvestepbefore", "curveStepBefore")]

/-- Property access `csMap[s]`: `undefined` when `s` is not a key. -/
def csMapLookup (s : String) : Option String :=
  (csMap.find? fun kv => kv.1 == s).map Prod.snd

/-- `Object.values(csMap)` — the legal values of the `interpolation`
enumeration in `TagAttrs`. -/
def csValues : List String := csMap.map Prod.snd

/-- `preProcessSnapshot`: `snapshot.interpolation =
csMap[snapshot.interpolation]` (reading a missing attribute gives
`undefined`, and `csMap[undefined]` is `undefined`). -/
def preProcessInterpolation (i : Option String) : Option String :=
  i.bind csMapLookup

/-- Value the instantiated model's `interpolation` attribute takes for
a given snapshot attribute: after `preProcessSnapshot`, the
mobx-state-tree type `types.optional(types.enumeration(Object.values(csMap)),
"curveStep")` substitutes the default for `undefined` and rejects a
defined value outside the enumeration. -/
def interpolationOfSnapshot (i : Option String) : Except String String :=
  match preProcessInterpolation i with
  | none => Except.ok "curveStep"
  | some s =>
    if s ∈ csValues then Except.ok s
    else Except.error "value is not a member of the interpolation enumeration"

/-- Direct minimum of a list of sample values, as the specification
describes it ("minimum computed directly over the same points"). -/
def directMin : List ℚ → Option ℚ
  | [] => none
  | x :: xs => some (xs.foldl min x)

/-- Direct maximum of a list of sample values. -/
def directMax : List ℚ → Option ℚ
  | [] => none
  | x :: xs => some (xs.foldl max x)

/-- Direct average of a list of sample values: their sum divided by
their count. -/
def directAvg (l : List ℚ) : Option ℚ :=
  match l with
  | [] => none
  | _ => some (sumQ l / (l.length : ℚ))

/-- Result state of `updateValue` on the one-sample input
`times = [10]`, `vals = [1]`, used by the concrete witnesses below. -/
def sampleOut : ChannelState :=
  { initChannelState with
      _value := some [1]
      _series := some [⟨10, some 1⟩]
      _avg := some (some 1)
      _max := some (some 1)
      _min := some (some 1)
      _minTime := some 10
      _maxTime := some 10 }

/-! Helper lemmas. -/

theorem foldl_minStep_spec (l : List ℚ) : ∀ m : ℚ,
    ∃ b, l.foldl minStep (some m) = some b ∧ b ≤ m ∧ (b = m ∨ b ∈ l) ∧
      ∀ x ∈ l, b ≤ x := by
  induction l with
  | nil => intro m; exact ⟨m, rfl, le_refl m, Or.inl rfl, by simp⟩
  | cons t rest ih =>
    intro m
    obtain ⟨b, hf, hle, hmem, hbd⟩ := ih (if t < m then t else m)
    have hstep : minStep (some m) t = some (if t < m then t else m) := by
      unfold minStep
      exact (apply_ite some (t < m) t m).symm
    refine ⟨b, ?_, ?_, ?_, ?_⟩
    · rw [List.foldl_cons, hstep]; exact hf
    · rcases lt_or_le t m with h | h
      · rw [if_pos h] at hle; exact le_of_lt (lt_of_le_of_lt hle h)
      · rwa [if_neg (not_lt.mpr h)] at hle
    · rcases hmem with heq | hm
      · rcases lt_or_le t m with h | h
        · rw [if_pos h] at heq
          exact Or.inr (heq ▸ List.mem_cons_self t rest)
        · rw [if_neg (not_lt.mpr h)] at heq
          exact Or.inl heq
      · exact Or.inr (List.mem_cons_of_mem t hm)
    · intro x hx
      rcases List.mem_cons.mp hx with rfl | hm
      · rcases lt_or_le x m with h | h
        · rwa [if_pos h] at hle
        · rw [if_neg (not_lt.mpr h)] at hle
          exact le_trans hle h
      · exact hbd x hm

theorem foldMin_spec (l : List ℚ) (h : l ≠ []) :
    ∃ b, foldMin l = some b ∧ b ∈ l ∧ ∀ x ∈ l, b ≤ x := by
  match l, h with
  | t :: rest, _ =>
    obtain ⟨b, hf, hle, hmem, hbd⟩ := foldl_minStep_spec rest t
    refine ⟨b, hf, ?_, ?_⟩
    · rcases hmem with rfl | hm
      · exact List.mem_cons_self _ _
      · exact List.mem_cons_of_mem _ hm
    · intro x hx
      rcases List.mem_cons.mp hx with rfl | hm
      · exact hle
      · exact hbd x hm

theorem foldMin_some_spec (l : List ℚ) (b : ℚ) (h : foldMin l = some b) :
    b ∈ l ∧ ∀ x ∈ l, b ≤ x := by
  have hne : l ≠ [] := by rintro rfl; exact Option.noConfusion h
  obtain ⟨b', h', hm, hb⟩ := foldMin_spec l hne
  rw [h] at h'
  injection h' with hbb
  exact hbb ▸ ⟨hm, hb⟩

theorem foldMin_eq_none_iff (l : List ℚ) : foldMin l = none ↔ l = [] := by
  constructor
  · intro h
    by_contra hne
    obtain ⟨b, hf, _, _⟩ := foldMin_spec l hne
    rw [h] at hf
    exact Option.noConfusion hf
  · rintro rfl; rfl

theorem foldl_maxStep_spec (l : List ℚ) : ∀ m : ℚ,
    ∃ b, l.foldl maxStep (some m) = some b ∧ m ≤ b ∧ (b = m ∨ b ∈ l) ∧
      ∀ x ∈ l, x ≤ b := by
  induction l with
  | nil => intro m; exact ⟨m, rfl, le_refl m, Or.inl rfl, by simp⟩
  | cons t rest ih =>
    intro m
    obtain ⟨b, hf, hle, hmem, hbd⟩ := ih (if m < t then t else m)
    have hstep : maxStep (some m) t = some (if m < t then t else m) := by
      unfold maxStep
      exact (apply_ite some (m < t) t m).symm
    refine ⟨b, ?_, ?_, ?_, ?_⟩
    · rw [List.foldl_cons, hstep]; exact hf
    · rcases lt_or_le m t with h | h
      · rw [if_pos h] at hle; exact le_of_lt (lt_of_lt_of_le h hle)
      · rwa [if_neg (not_lt.mpr h)] at hle
    · rcases hmem with heq | hm
      · rcases lt_or_le m t with h | h
        · rw [if_pos h] at heq
          exact Or.inr (heq ▸ List.mem_cons_self t rest)
        · rw [if_neg (not_lt.mpr h)] at heq
          exact Or.inl heq
      · exact Or.inr (List.mem_cons_of_mem t hm)
    · intro x hx
      rcases List.mem_cons.mp hx with rfl | hm
      · rcases lt_or_le m x with h | h
        · rwa [if_pos h] at hle
        · rw [if_neg (not_lt.mpr h)] at hle
          exact le_trans h hle
      · exact hbd x hm

theorem foldMax_spec (l : List ℚ) (h : l ≠ []) :
    ∃ b, foldMax l = some b ∧ b ∈ l ∧ ∀ x ∈ l, x ≤ b := by
  match l, h with
  | t :: rest, _ =>
    obtain ⟨b, hf, hle, hmem, hbd⟩ := foldl_maxStep_spec rest t
    refine ⟨b, hf, ?_, ?_⟩
    · rcases hmem with rfl | hm
      · exact List.mem_cons_self _ _
      · exact List.mem_cons_of_mem _ hm
    · intro x hx
      rcases List.mem_cons.mp hx with rfl | hm
      · exact hle
      · exact hbd x hm

theorem foldMax_some_spec (l : List ℚ) (b : ℚ) (h : foldMax l = some b) :
    b ∈ l ∧ ∀ x ∈ l, x ≤ b := by
  have hne : l ≠ [] := by rintro rfl; exact Option.noConfusion h
  obtain ⟨b', h', hm, hb⟩ := foldMax_spec l hne
  rw [h] at h'
  injection h' with hbb
  exact hbb ▸ ⟨hm, hb⟩

theorem foldl_minStep_eq_min (l : List ℚ) : ∀ m : ℚ,
    l.foldl minStep (some m) = some (l.foldl min m) := by
  induction l with
  | nil => intro m; rfl
  | cons t rest ih =>
    intro m
    rw [List.foldl_cons, List.foldl_cons]
    have h1 : minStep (some m) t = some (min m t) := by
      show (if t < m then some t else some m) = some (min m t)
      rcases lt_or_le t m with h | h
      · rw [if_pos h, min_eq_right (le_of_lt h)]
      · rw [if_neg (not_lt.mpr h), min_eq_left h]
    rw [h1]
    exact ih (min m t)

theorem foldMin_eq_directMin (l : List ℚ) : foldMin l = directMin l := by
  cases l with
  | nil => rfl
  | cons x xs =>
    rw [foldMin, List.foldl_cons]
    show xs.foldl minStep (some x) = directMin (x :: xs)
    rw [foldl_minStep_eq_min]
    rfl

theorem foldl_maxStep_eq_max (l : List ℚ) : ∀ m : ℚ,
    l.foldl maxStep (some m) = some (l.foldl max m) := by
  induction l with
  | nil => intro m; rfl
  | cons t rest ih =>
    intro m
    rw [List.foldl_cons, List.foldl_cons]
    have h1 : maxStep (some m) t = some (max m t) := by
      show (if m < t then some t else some m) = some (max m t)
      rcases lt_or_le m t with h | h
      · rw [if_pos h, max_eq_right (le_of_lt h)]
      · rw [if_neg (not_lt.mpr h), max_eq_left h]
    rw [h1]
    exact ih (max m t)

theorem foldMax_eq_directMax (l : List ℚ) : foldMax l = directMax l := by
  cases l with
  | nil => rfl
  | cons x xs =>
    rw [foldMax, List.foldl_cons]
    show xs.foldl maxStep (some x) = directMax (x :: xs)
    rw [foldl_maxStep_eq_max]
    rfl

theorem seriesRange_eq_none_iff (ps : List Point) :
    seriesRange ps = none ↔ ps = [] := by
  constructor
  · intro h
    by_contra hne
    have hmapne : ps.map Point.time ≠ [] := by
      simpa using hne
    obtain ⟨b, hb, _, _⟩ := foldMin_spec _ hmapne
    obtain ⟨e, he, _, _⟩ := foldMax_spec _ hmapne
    unfold seriesRange at h
    rw [hb, he] at h
    exact Option.noConfusion h
  · rintro rfl; rfl

theorem seriesRange_some_spec (ps : List Point) (b e : ℚ)
    (h : seriesRange ps = some (b, e)) :
    b ∈ ps.map Point.time ∧ e ∈ ps.map Point.time ∧
      ∀ t ∈ ps.map Point.time, b ≤ t ∧ t ≤ e := by
  unfold seriesRange at h
  cases hmin : foldMin (ps.map Point.time) with
  | none => rw [hmin] at h; simp at h
  | some b' =>
    cases hmax : foldMax (ps.map Point.time) with
    | none => rw [hmin, hmax] at h; simp at h
    | some e' =>
      rw [hmin, hmax] at h
      simp only [Option.some.injEq, Prod.mk.injEq] at h
      obtain ⟨rfl, rfl⟩ := h
      obtain ⟨hbm, hbb⟩ := foldMin_some_spec _ _ hmin
      obtain ⟨hem, heb⟩ := foldMax_some_spec _ _ hmax
      exact ⟨hbm, hem, fun t ht => ⟨hbb t ht, heb t ht⟩⟩

theorem buildPointsFrom_covered (vs : List ℚ) :
    ∀ (ts : List ℚ) (i : ℕ),
      (∀ j, (hj : j < ts.length) → ((i + j : ℕ) : ℚ) ≤ ts[j]) →
      i + ts.length ≤ vs.length →
      buildPointsFrom vs i ts =
        List.zipWith (fun t v => Point.mk t (some v)) ts (vs.drop i) := by
  intro ts
  induction ts with
  | nil => intro i _ _; simp [buildPointsFrom]
  | cons t rest ih =>
    intro i hc hl
    have h0 : ((i : ℕ) : ℚ) ≤ t := by
      have := hc 0 (by simp)
      simpa using this
    have hi : i < vs.length := by
      simp only [List.length_cons] at hl
      omega
    have hshift : ∀ j, (hj : j < rest.length) → ((i + 1 + j : ℕ) : ℚ) ≤ rest[j] := by
      intro j hj
      have h2 := hc (j + 1) (by simp only [List.length_cons]; omega)
      simp only [List.getElem_cons_succ] at h2
      have h3 : i + (j + 1) = i + 1 + j := by omega
      rwa [h3] at h2
    have hl' : i + 1 + rest.length ≤ vs.length := by
      simp only [List.length_cons] at hl
      omega
    rw [List.drop_eq_getElem_cons hi]
    simp only [buildPointsFrom, if_pos h0, List.zipWith_cons_cons]
    rw [List.getElem?_eq_getElem hi]
    exact congrArg (fun l => Point.mk t (some vs[i]) :: l) (ih (i + 1) hshift hl')

theorem buildPoints_covered (times vals : List ℚ)
    (hc : ∀ j, (hj : j < times.length) → ((j : ℕ) : ℚ) ≤ times[j])
    (hl : times.length ≤ vals.length) :
    buildPoints times vals = pairAll times vals := by
  unfold buildPoints pairAll
  rw [buildPointsFrom_covered vals times 0 ?_ ?_]
  · rw [List.drop_zero]
  · intro j hj
    simpa using hc j hj
  · omega

theorem seriesValues_pairAll : ∀ (ts vs : List ℚ), ts.length = vs.length →
    seriesValues (pairAll ts vs) = vs := by
  intro ts
  induction ts with
  | nil =>
    intro vs h
    cases vs with
    | nil => rfl
    | cons v vs' => simp at h
  | cons t ts' ih =>
    intro vs h
    cases vs with
    | nil => simp at h
    | cons v vs' =>
      simp only [List.length_cons, Nat.add_right_cancel_iff] at h
      simp only [pairAll, List.zipWith_cons_cons, seriesValues,
        List.filterMap_cons] at *
      exact congrArg (fun l => v :: l) (ih vs' h)

theorem seriesComplete_pairAll : ∀ (ts vs : List ℚ),
    seriesComplete (pairAll ts vs) = true := by
  intro ts
  induction ts with
  | nil => intro vs; rfl
  | cons t ts' ih =>
    intro vs
    cases vs with
    | nil => rfl
    | cons v vs' =>
      simp only [pairAll, List.zipWith_cons_cons, seriesComplete,
        List.all_cons, Option.isSome_some, Bool.true_and] at *
      exact ih vs'

theorem pairAll_length (ts vs : List ℚ) (h : ts.length = vs.length) :
    (pairAll ts vs).length = vs.length := by
  unfold pairAll
  rw [List.length_zipWith, h, min_self]

theorem updateValue_eq_error (st : ChannelState) (times vals : List ℚ)
    (hr : seriesRange (buildPoints times vals) = none) :
    updateValue st times vals =
      Except.error "range of an empty series is undefined" := by
  unfold updateValue
  rw [hr]

theorem updateValue_eq_ok (st : ChannelState) (times vals : List ℚ)
    (b e : ℚ) (hr : seriesRange (buildPoints times vals) = some (b, e)) :
    updateValue st times vals =
      Except.ok { st with
        _value := some vals
        _series := some (buildPoints times vals)
        _avg := some ((seriesAvg (buildPoints times vals)).map jsTrunc)
        _max := some ((seriesMax (buildPoints times vals)).map jsTrunc)
        _min := some ((seriesMin (buildPoints times vals)).map jsTrunc)
        _minTime := some b
        _maxTime := some e } := by
  unfold updateValue
  rw [hr]

theorem updateValue_ok_fields (st : ChannelState) (times vals : List ℚ)
    (st' : ChannelState) (h : updateValue st times vals = Except.ok st') :
    ∃ b e, seriesRange (buildPoints times vals) = some (b, e)
      ∧ st'._value = some vals
      ∧ st'._series = some (buildPoints times vals)
      ∧ st'._avg = some ((seriesAvg (buildPoints times vals)).map jsTrunc)
      ∧ st'._max = some ((seriesMax (buildPoints times vals)).map jsTrunc)
      ∧ st'._min = some ((seriesMin (buildPoints times vals)).map jsTrunc)
      ∧ st'._minTime = some b ∧ st'._maxTime = some e := by
  cases hr : seriesRange (buildPoints times vals) with
  | none =>
    rw [updateValue_eq_error st times vals hr] at h
    exact Except.noConfusion h
  | some be =>
    obtain ⟨b, e⟩ := be
    rw [updateValue_eq_ok st times vals b e hr] at h
    injection h with h'
    exact ⟨b, e, rfl, by rw [← h']; exact ⟨rfl, rfl, rfl, rfl, rfl, rfl, rfl⟩⟩

theorem directAvg_of_ne_nil (l : List ℚ) (h : l ≠ []) :
    directAvg l = some (sumQ l / (l.length : ℚ)) := by
  cases l with
  | nil => exact absurd rfl h
  | cons x xs => rfl

theorem updateValue_sample :
    updateValue initChannelState [10] [1] = Except.ok sampleOut := by
  simp [updateValue, buildPoints, buildPointsFrom, seriesRange, foldMin,
    foldMax, minStep, maxStep, seriesAvg, seriesMin, seriesMax, seriesValues,
    seriesComplete, sumQ, jsTrunc, sampleOut]

/-! Claims. -/

/-- C1, counterexample: on the raw parent row `[10, 20]` with channel
values `[1, 2]` (every sample included by the loop), `updateValue`
stores `_avg = 1` while the average computed directly over the same
points is `3/2`; the stored statistic does not equal the direct
computation, because `parseInt` discards the fractional part. -/
theorem avg_truncation_cex :
    ((okState (updateValue initChannelState [10, 20] [1, 2])).bind
        ChannelState._avg) = some (some 1)
    ∧ directAvg [1, 2] = some (3 / 2)
    ∧ (1 : ℚ) ≠ 3 / 2 := by
  refine ⟨?_, ?_, by norm_num⟩
  · simp [updateValue, buildPoints, buildPointsFrom, seriesRange, foldMin,
      foldMax, minStep, maxStep, seriesAvg, seriesMin, seriesMax,
      seriesValues, seriesComplete, sumQ, jsTrunc, okState]
    norm_num
  · simp [directAvg, sumQ]
    norm_num

/-- C1, amended: provided every sample index `i` of the raw parent row
satisfies `i ≤ times[i]` (so the loop includes every sample) and the
channel row has one value per sample, the stored `_min`, `_max` and
`_avg` equal the `parseInt` truncations toward zero of the minimum,
maximum and average computed directly over the same points of that
array. -/
theorem stats_direct_truncated (st : ChannelState) (times vals : List ℚ)
    (hc : ∀ j, (hj : j < times.length) → ((j : ℕ) : ℚ) ≤ times[j])
    (hlen : vals.length = times.length) (hne : times ≠ []) :
    ∃ st', updateValue st times vals = Except.ok st'
      ∧ st'._min = some ((directMin vals).map jsTrunc)
      ∧ st'._max = some ((directMax vals).map jsTrunc)
      ∧ st'._avg = some ((directAvg vals).map jsTrunc) := by
  have hb : buildPoints times vals = pairAll times vals :=
    buildPoints_covered times vals hc (le_of_eq hlen.symm)
  have hlen' : times.length = vals.length := hlen.symm
  have hvne : vals ≠ [] := by
    intro hv
    rw [hv] at hlen
    exact hne (List.length_eq_zero.mp hlen.symm)
  have hplen : (pairAll times vals).length = vals.length :=
    pairAll_length times vals hlen'
  have hpne : pairAll times vals ≠ [] := by
    intro hnil
    rw [hnil] at hplen
    exact hvne (List.length_eq_zero.mp hplen.symm)
  have hmapne : (buildPoints times vals).map Point.time ≠ [] := by
    rw [hb]
    simpa using hpne
  obtain ⟨b, hbmin, _, _⟩ := foldMin_spec _ hmapne
  obtain ⟨e, hbmax, _, _⟩ := foldMax_spec _ hmapne
  have hr : seriesRange (buildPoints times vals) = some (b, e) := by
    unfold seriesRange
    rw [hbmin, hbmax]
  have hvals : seriesValues (pairAll times vals) = vals :=
    seriesValues_pairAll times vals hlen'
  have hcomp : seriesComplete (pairAll times vals) = true :=
    seriesComplete_pairAll times vals
  have hemp : (pairAll times vals).isEmpty = false := by
    cases hpe : (pairAll times vals).isEmpty
    · rfl
    · exact absurd (List.isEmpty_iff.mp hpe) hpne
  refine ⟨_, updateValue_eq_ok st times vals b e hr, ?_, ?_, ?_⟩
  · show some ((seriesMin (buildPoints times vals)).map jsTrunc) = _
    rw [hb, seriesMin, hcomp, if_pos rfl, hvals, foldMin_eq_directMin]
  · show some ((seriesMax (buildPoints times vals)).map jsTrunc) = _
    rw [hb, seriesMax, hcomp, if_pos rfl, hvals, foldMax_eq_directMax]
  · show some ((seriesAvg (buildPoints times vals)).map jsTrunc) = _
    rw [hb, seriesAvg, hemp, hcomp, hvals, hplen,
      directAvg_of_ne_nil vals hvne]
    simp

/-- C1, witness: at `times = [10, 20]`, `vals = [1, 2]` the amended
statement is realized concretely. -/
theorem stats_direct_truncated_witness :
    ((okState (updateValue initChannelState [10, 20] [1, 2])).bind
        ChannelState._avg) = some ((directAvg [1, 2]).map jsTrunc) := by
  obtain ⟨st', h, hmin, hmax, havg⟩ :=
    stats_direct_truncated initChannelState [10, 20] [1, 2]
      (by
        intro j hj
        simp only [List.length_cons, List.length_nil] at hj
        interval_cases j <;> norm_num)
      rfl (by simp)
  rw [h]
  show st'._avg = some ((directAvg [1, 2]).map jsTrunc)
  exact havg

/-- C2: the loop of `updateValue` does not produce one point per raw
sample.  Its condition compares the loop index with the time value at
that index (`i <= self.parent._value[0][i]`) instead of the array
length: on the parent row `[5, 0]` with channel values `[1, 2]` the
loop stops at `i = 1` (because `1 ≤ 0` is false) and builds a single
point for two raw samples. -/
theorem loop_drops_samples :
    buildPoints [5, 0] [1, 2] = [⟨5, some 1⟩]
    ∧ ([5, 0] : List ℚ).length = 2
    ∧ (buildPoints [5, 0] [1, 2]).length ≠ ([5, 0] : List ℚ).length := by
  have h : buildPoints [5, 0] [1, 2] = [⟨5, some 1⟩] := by
    simp [buildPoints, buildPointsFrom]
  refine ⟨h, rfl, ?_⟩
  rw [h]
  simp

/-- C3: the cursor-value resolution never throws, whatever index the
external `bisect` call produces: with no tracker set it returns no
value (`undefined`); with a tracker set it returns the guarded lookup
at the computed index, and whenever that lookup fails to find an event
the caught exception turns into `null`. -/
theorem getValue_safe (bisect : ℚ → ℤ → ℤ) (ps : List Point)
    (tracker : Option ℚ) (tb te : ℚ) :
    (tracker = none → getValue bisect ps tracker tb te = JsVal.undef)
    ∧ (∀ t, tracker = some t →
        getValue bisect ps tracker tb te =
          seriesLookup ps (bisect t (cursorIndex ps t tb te)))
    ∧ ∀ i, listGetWrap ps i = none → seriesLookup ps i = JsVal.null := by
  refine ⟨?_, ?_, ?_⟩
  · rintro rfl; rfl
  · rintro t rfl; rfl
  · intro i hi
    unfold seriesLookup
    rw [hi]

/-- C3, witness: concrete runs of `getValue`, one with no tracker and
one whose lookup index (999) is out of range so the `try/catch`
substitutes `null`. -/
theorem getValue_safe_witness :
    getValue (fun _ _ => 999) [⟨10, some 1⟩] none 0 10 = JsVal.undef
    ∧ getValue (fun _ _ => 999) [⟨10, some 1⟩] (some 5) 0 10 = JsVal.null := by
  constructor
  · exact (getValue_safe (fun _ _ => 999) [⟨10, some 1⟩] none 0 10).1 rfl
  · have h := getValue_safe (fun _ _ => 999) [⟨10, some 1⟩] (some 5) 0 10
    rw [h.2.1 5 rfl]
    exact h.2.2 999 (by simp [listGetWrap])

/-- C4, counterexample: `updateValue` is not total.  On an empty raw
parent row the loop builds no points, the range of the empty series is
undefined, and reading `.begin()` from it throws — a failure path
distinct from the guarded cursor lookup. -/
theorem updateValue_empty_errors :
    updateValue initChannelState [] [] =
      Except.error "range of an empty series is undefined" := rfl

/-- C4, amended: the guarded cursor-position lookup is the only caught
failure path, and `updateValue` completes without raising exactly when
the point series built from the raw array is nonempty; on a raw array
that yields an empty series (for example the empty array) it raises,
because the range of an empty series is undefined. -/
theorem updateValue_ok_iff_nonempty (st : ChannelState)
    (times vals : List ℚ) :
    (∃ st', updateValue st times vals = Except.ok st') ↔
      buildPoints times vals ≠ [] := by
  constructor
  · rintro ⟨st', h⟩ hnil
    obtain ⟨b, e, hr, _⟩ := updateValue_ok_fields st times vals st' h
    rw [hnil] at hr
    simp [seriesRange, foldMin, foldMax] at hr
  · intro hne
    cases hr : seriesRange (buildPoints times vals) with
    | none => exact absurd ((seriesRange_eq_none_iff _).mp hr) hne
    | some be =>
      obtain ⟨b, e⟩ := be
      exact ⟨_, updateValue_eq_ok st times vals b e hr⟩

/-- C4, witness: on the one-sample raw row `[10]` the built series is
nonempty and `updateValue` completes. -/
theorem updateValue_ok_iff_nonempty_witness :
    (okState (updateValue initChannelState [10] [1])).isSome = true := by
  obtain ⟨st', h⟩ := (updateValue_ok_iff_nonempty initChannelState
    [10] [1]).mpr (by simp [buildPoints, buildPointsFrom])
  rw [h]
  rfl

/-- C5: after a completed run of `updateValue`, `_minTime` and
`_maxTime` hold the begin and the end of the time range of the series
just built: a begin that belongs to the built series' times and bounds
them from below, and an end that belongs to them and bounds them from
above. -/
theorem time_bounds_of_series (st : ChannelState) (times vals : List ℚ)
    (st' : ChannelState) (h : updateValue st times vals = Except.ok st') :
    ∃ b e, st'._minTime = some b ∧ st'._maxTime = some e
      ∧ b ∈ (buildPoints times vals).map Point.time
      ∧ e ∈ (buildPoints times vals).map Point.time
      ∧ ∀ t ∈ (buildPoints times vals).map Point.time, b ≤ t ∧ t ≤ e := by
  obtain ⟨b, e, hr, _, _, _, _, _, hbt, het⟩ :=
    updateValue_ok_fields st times vals st' h
  obtain ⟨hbm, hem, hbd⟩ := seriesRange_some_spec _ b e hr
  exact ⟨b, e, hbt, het, hbm, hem, hbd⟩

/-- C5, witness: on the one-sample raw row `[10]`, both stored time
bounds are the single point time `10`. -/
theorem time_bounds_of_series_witness :
    sampleOut._minTime = some 10 ∧ sampleOut._maxTime = some 10 := by
  obtain ⟨b, e, h1, h2, hb, he, hall⟩ :=
    time_bounds_of_series initChannelState [10] [1] sampleOut
      updateValue_sample
  have hbp : (buildPoints [10] [1]).map Point.time = [10] := by
    simp [buildPoints, buildPointsFrom]
  rw [hbp] at hb he
  simp only [List.mem_singleton] at hb he
  rw [hb] at h1
  rw [he] at h2
  exact ⟨h1, h2⟩

/-- C6: on a freshly created channel model, on which `updateValue` has
never run, every derived attribute is unset and the view renders
nothing; and every completed `updateValue` run leaves all of them
defined and the view rendering. -/
theorem initial_state_unset :
    initChannelState._value = none ∧ initChannelState._series = none
    ∧ initChannelState._min = none ∧ initChannelState._max = none
    ∧ initChannelState._avg = none
    ∧ initChannelState._minTime = none ∧ initChannelState._maxTime = none
    ∧ viewRendersNull initChannelState = true
    ∧ ∀ st times vals st', updateValue st times vals = Except.ok st' →
        st'._value.isSome = true ∧ st'._series.isSome = true
        ∧ st'._min.isSome = true ∧ st'._max.isSome = true
        ∧ st'._avg.isSome = true
        ∧ st'._minTime.isSome = true ∧ st'._maxTime.isSome = true
        ∧ viewRendersNull st' = false := by
  refine ⟨rfl, rfl, rfl, rfl, rfl, rfl, rfl, rfl, ?_⟩
  intro st times vals st' h
  obtain ⟨b, e, _, hv, hs, ha, hmx, hmn, hbt, het⟩ :=
    updateValue_ok_fields st times vals st' h
  rw [viewRendersNull, hv, hs, ha, hmx, hmn, hbt, het]
  exact ⟨rfl, rfl, rfl, rfl, rfl, rfl, rfl, rfl⟩

/-- C6, witness: the completed sample run defines the derived state and
the view no longer renders null. -/
theorem initial_state_unset_witness :
    sampleOut._value.isSome = true ∧ viewRendersNull sampleOut = false := by
  have h := initial_state_unset.2.2.2.2.2.2.2.2 initChannelState [10] [1]
    sampleOut updateValue_sample
  exact ⟨h.1, h.2.2.2.2.2.2.2⟩

/-- C7: `handleTrackerChanged(t)` sets the model's tracker field to `t`
and signals the parent to re-render, and changes no other field of the
channel model. -/
theorem handleTrackerChanged_frame (st : ChannelState) (t : Option ℚ) :
    (handleTrackerChanged st t).state.tracker = t
    ∧ (handleTrackerChanged st t).parentUpdateViewCalled = true
    ∧ (handleTrackerChanged st t).state.displayname = st.displayname
    ∧ (handleTrackerChanged st t).state.units = st.units
    ∧ (handleTrackerChanged st t).state.unitsformat = st.unitsformat
    ∧ (handleTrackerChanged st t).state.caption = st.caption
    ∧ (handleTrackerChanged st t).state.interpolation = st.interpolation
    ∧ (handleTrackerChanged st t).state.showgrid = st.showgrid
    ∧ (handleTrackerChanged st t).state.showtracker = st.showtracker
    ∧ (handleTrackerChanged st t).state.height = st.height
    ∧ (handleTrackerChanged st t).state.opacity = st.opacity
    ∧ (handleTrackerChanged st t).state.strokewidth = st.strokewidth
    ∧ (handleTrackerChanged st t).state.strokecolor = st.strokecolor
    ∧ (handleTrackerChanged st t).state.value = st.value
    ∧ (handleTrackerChanged st t).state._value = st._value
    ∧ (handleTrackerChanged st t).state._series = st._series
    ∧ (handleTrackerChanged st t).state._avg = st._avg
    ∧ (handleTrackerChanged st t).state._max = st._max
    ∧ (handleTrackerChanged st t).state._min = st._min
    ∧ (handleTrackerChanged st t).state._minTime = st._minTime
    ∧ (handleTrackerChanged st t).state._maxTime = st._maxTime :=
  ⟨rfl, rfl, rfl, rfl, rfl, rfl, rfl, rfl, rfl, rfl, rfl,
   rfl, rfl, rfl, rfl, rfl, rfl, rfl, rfl, rfl, rfl⟩

/-- C8: after every completed run of `updateValue` the stored
statistics are the base-10 `parseInt` truncations of the corresponding
series statistics, and truncation toward zero discards exactly the
fractional part: for a nonnegative statistic the stored integer lies in
`(q - 1, q]`, for a negative one in `[q, q + 1)`. -/
theorem stats_are_parseInt_truncations (st : ChannelState)
    (times vals : List ℚ) (st' : ChannelState)
    (h : updateValue st times vals = Except.ok st') :
    st'._avg = some ((seriesAvg (buildPoints times vals)).map jsTrunc)
    ∧ st'._max = some ((seriesMax (buildPoints times vals)).map jsTrunc)
    ∧ st'._min = some ((seriesMin (buildPoints times vals)).map jsTrunc)
    ∧ (∀ q : ℚ, 0 ≤ q → (jsTrunc q : ℚ) ≤ q ∧ q - 1 < (jsTrunc q : ℚ))
    ∧ ∀ q : ℚ, q < 0 → q ≤ (jsTrunc q : ℚ) ∧ (jsTrunc q : ℚ) < q + 1 := by
  obtain ⟨b, e, _, _, _, ha, hmx, hmn, _, _⟩ :=
    updateValue_ok_fields st times vals st' h
  refine ⟨ha, hmx, hmn, ?_, ?_⟩
  · intro q hq
    unfold jsTrunc
    rw [if_pos hq]
    exact ⟨Int.floor_le q, Int.sub_one_lt_floor q⟩
  · intro q hq
    unfold jsTrunc
    rw [if_neg (not_le.mpr hq)]
    exact ⟨Int.le_ceil q, Int.ceil_lt_add_one q⟩

/-- C8, witness: the sample run satisfies the truncation equations, and
`parseInt` truncation of `3/2` indeed lands in `(1/2, 3/2]`. -/
theorem stats_are_parseInt_truncations_witness :
    sampleOut._avg = some ((seriesAvg (buildPoints [10] [1])).map jsTrunc)
    ∧ (jsTrunc (3 / 2) : ℚ) ≤ 3 / 2
    ∧ (3 : ℚ) / 2 - 1 < (jsTrunc (3 / 2) : ℚ) := by
  have h := stats_are_parseInt_truncations initChannelState [10] [1]
    sampleOut updateValue_sample
  exact ⟨h.1, (h.2.2.2.1 (3 / 2) (by norm_num)).1,
    (h.2.2.2.1 (3 / 2) (by norm_num)).2⟩

/-- C9: `preProcessSnapshot` replaces the interpolation attribute by
its entry in the curve-name map; any string that is not a key of that
map — including the already-canonical `"curveStep"` — becomes
`undefined`, and the model then takes the default `"curveStep"`
instead of rejecting the snapshot, while every key is replaced by its
canonical entry and accepted. -/
theorem interpolation_preprocess :
    csMapLookup "curveStep" = none
    ∧ interpolationOfSnapshot none = Except.ok "curveStep"
    ∧ (∀ s, csMapLookup s = none →
        interpolationOfSnapshot (some s) = Except.ok "curveStep")
    ∧ ∀ s c, csMapLookup s = some c →
        interpolationOfSnapshot (some s) = Except.ok c := by
  refine ⟨by decide, rfl, ?_, ?_⟩
  · intro s hs
    unfold interpolationOfSnapshot
    have hpp : preProcessInterpolation (some s) = none := hs
    rw [hpp]
  · intro s c hc
    have hmem : c ∈ csValues := by
      have hf : ∃ kv, csMap.find? (fun kv => kv.1 == s) = some kv
          ∧ kv.2 = c := by
        unfold csMapLookup at hc
        cases hf : csMap.find? (fun kv => kv.1 == s) with
        | none => rw [hf] at hc; simp at hc
        | some kv =>
          rw [hf] at hc
          exact ⟨kv, rfl, Option.some.inj hc⟩
      obtain ⟨kv, hfind, hsnd⟩ := hf
      have hm := List.mem_of_find?_eq_some hfind
      exact hsnd ▸ List.mem_map_of_mem Prod.snd hm
    unfold interpolationOfSnapshot
    have hpp : preProcessInterpolation (some s) = some c := hc
    rw [hpp]
    show (if c ∈ csValues then Except.ok c
      else Except.error
        "value is not a member of the interpolation enumeration") =
      Except.ok c
    rw [if_pos hmem]

/-- C9, witness: the canonical name `"curveStep"` is not a key and
falls back to the default, while the lower-case key `"curvelinear"`
is canonicalized to `"curveLinear"`. -/
theorem interpolation_preprocess_witness :
    interpolationOfSnapshot (some "curveStep") = Except.ok "curveStep"
    ∧ interpolationOfSnapshot (some "curvelinear") =
        Except.ok "curveLinear" := by
  have h := interpolation_preprocess
  exact ⟨h.2.2.1 "curveStep" (by decide),
    h.2.2.2 "curvelinear" "curveLinear" (by decide)⟩

/-- C10: the tracker marker position reaches the chart only when the
`showtracker` flag is on and the cursor-value lookup resolved a truthy
value; when the lookup yields `null`, or no tracker is set, the marker
is hidden even if `showtracker` is true. -/
theorem tracker_marker_visibility (showtracker : Bool)
    (bisect : ℚ → ℤ → ℤ) (ps : List Point) (tracker : Option ℚ)
    (tb te : ℚ) :
    (getValue bisect ps tracker tb te = JsVal.null →
      trackerPositionOf showtracker (getValue bisect ps tracker tb te)
        tracker = none)
    ∧ (tracker = none →
      trackerPositionOf showtracker (getValue bisect ps tracker tb te)
        tracker = none)
    ∧ ∀ p, trackerPositionOf showtracker
          (getValue bisect ps tracker tb te) tracker = some p →
        showtracker = true
        ∧ jsTruthy (getValue bisect ps tracker tb te) = true := by
  refine ⟨?_, ?_, ?_⟩
  · intro h
    unfold trackerPositionOf
    rw [h]
    show (if showtracker && false then tracker else none) = none
    rw [Bool.and_false]
    rfl
  · rintro rfl
    unfold trackerPositionOf
    split
    · rfl
    · rfl
  · intro p hp
    unfold trackerPositionOf at hp
    cases showtracker with
    | false => simp at hp
    | true =>
      cases hju : jsTruthy (getValue bisect ps tracker tb te) with
      | false => rw [hju] at hp; simp at hp
      | true => exact ⟨rfl, rfl⟩

/-- C10, witness: with the flag on, a set tracker and a successful
truthy lookup, the marker is shown at the tracker position, so the
three conditions of the claim hold concretely. -/
theorem tracker_marker_visibility_witness :
    true = true
    ∧ jsTruthy (getValue (fun _ _ => 0) [⟨10, some 1⟩] (some 5) 0 10) =
        true := by
  refine (tracker_marker_visibility true (fun _ _ => 0) [⟨10, some 1⟩]
    (some 5) 0 10).2.2 5 ?_
  simp [trackerPositionOf, getValue, seriesLookup, listGetWrap,
    cursorIndex, jsTruthy]

end Channel
